import Mathlib

/-!
Shallow embedding of the table-driven finite-state-machine engine of
`src/fsm.h` / `src/fsm.c`.

Modelling choices:

* User-supplied actions are C function pointers of types
  `uint8_t (*)(void)` (process) and `void (*)(void)` (entry/exit hooks).
  Such functions can only interact with the rest of the program through
  ambient mutable state, which we model as an abstract world type `W`
  threaded through every action: a process action is `W → Nat × W`
  (its `uint8_t` return value is truncated `% 256` at the call site in
  `fsmRun`, mirroring the C return type), a hook is `W → W`.
  A `NULL` function pointer is `none`.
* `int8_t` results become `Int` (the code only produces `0` and `-1`).
* The state table `FsmStateDef_t table[FSM_MAX_NR_OF_STATES]` is a
  `List` of slots; the real C array always has length
  `FSM_MAX_NR_OF_STATES`, which theorems carry as a hypothesis where
  they need it.  Indexing `table[i]` is `tableGet`, which is `none`
  exactly when the access would be out of bounds; an out-of-bounds C
  array access is undefined behavior, so `fsmRun` propagates such a
  `none` as failure of the whole call (`fsmRun` returns `Option`).
  This happens exactly when a process action requests a transition to a
  next state that is out of range, which `fsmRun` does not bounds-check.
* To reason about which user actions run, in which order, and what value
  of `currentState` they can observe, `fsmRun` additionally returns a
  trace of `FsmEvent`s, one per invoked user action, each recording the
  value of `fsmHandle->currentState` at the moment that action runs.
-/

/-- Constant `FSM_MAX_NR_OF_STATES` from `fsm.h`: `(uint8_t)10U`. -/
def FSM_MAX_NR_OF_STATES : Nat := 10

/-- One trace event per user action invoked by `fsmRun`; `observed` is the
value of `fsmHandle->currentState` at the moment the action is called. -/
inductive FsmEvent : Type where
  | procRun (observed : Nat)
  | exitRun (observed : Nat)
  | entryRun (observed : Nat)
  deriving DecidableEq

/-- Type `FsmStateDef_t`: one table slot, three optional actions over world `W`. -/
structure FsmStateDef (W : Type) : Type where
  stateFunc : Option (W → Nat × W)
  onEntryFunc : Option (W → W)
  onExitFunc : Option (W → W)

/-- Type `FsmHandle_t`: the machine aggregate. -/
structure FsmHandle (W : Type) : Type where
  currentState : Nat
  table : List (FsmStateDef W)

/-- A slot with all three action pointers `NULL`. -/
def emptyStateDef {W : Type} : FsmStateDef W := ⟨none, none, none⟩

/-- C array indexing `table[i]`: `none` exactly when `i` is out of bounds
(an out-of-bounds access is undefined behavior in the source). -/
def tableGet {W : Type} (t : List (FsmStateDef W)) (i : Nat) : Option (FsmStateDef W) :=
  t[i]?

/-- Function `fsmInit` from `fsm.c`: clears every slot of the table, then sets
`currentState` to `initState` (returning `0`) when it is in range, and to
`0` (returning `-1`) otherwise.  The `% 256` models the `uint8_t`
parameter type. -/
def fsmInit {W : Type} (fsmHandle : FsmHandle W) (initState : Nat) : FsmHandle W × Int :=
  let cleared : List (FsmStateDef W) := List.replicate FSM_MAX_NR_OF_STATES emptyStateDef
  if initState % 256 < FSM_MAX_NR_OF_STATES then
    ({ currentState := initState % 256, table := cleared }, 0)
  else
    ({ currentState := 0, table := cleared }, -1)

/-- Function `fsmAdd` from `fsm.c`: when `state` is in range and `stateFunc` is not
`NULL`, overwrite slot `state` with the given triple and return `0`;
otherwise leave the machine untouched and return `-1`.  The `% 256`
models the `uint8_t` parameter type. -/
def fsmAdd {W : Type} (fsmHandle : FsmHandle W) (state : Nat)
    (stateFunc : Option (W → Nat × W)) (onEntryFunc onExitFunc : Option (W → W)) :
    FsmHandle W × Int :=
  if state % 256 < FSM_MAX_NR_OF_STATES ∧ stateFunc.isSome = true then
    ({ fsmHandle with
        table := fsmHandle.table.set (state % 256) ⟨stateFunc, onEntryFunc, onExitFunc⟩ }, 0)
  else
    (fsmHandle, -1)

/-- Source pattern `if (NULL != hook) run hook` : run an optional hook on the world. -/
def runHook {W : Type} (hook : Option (W → W)) (w : W) : W :=
  match hook with
  | some g => g w
  | none => w

/-- The trace contributed by an optional hook: one event when the pointer
is non-`NULL`, nothing otherwise. -/
def hookTrace {W : Type} (hook : Option (W → W)) (e : FsmEvent) : List FsmEvent :=
  match hook with
  | some _ => [e]
  | none => []

/-- Function `fsmRun` from `fsm.c`, one tick.  Returns the machine, the world after
all invoked actions, and the trace of invoked actions; `none` models the
undefined behavior of an out-of-bounds table access (the code does not
bounds-check the next state returned by the process action, and reading
`table[fsmHandle->currentState]` with an out-of-range `currentState` is
likewise out of bounds).  The `% 256` on the process result models the
`uint8_t` return type of `FsmStateFunc_t`. -/
def fsmRun {W : Type} (fsmHandle : FsmHandle W) (w : W) :
    Option (FsmHandle W × W × List FsmEvent) :=
  match tableGet fsmHandle.table fsmHandle.currentState with
  | none => none
  | some slot =>
    match slot.stateFunc with
    | none => some (fsmHandle, w, [])
    | some f =>
      let stateNext := (f w).1 % 256
      let w1 := (f w).2
      if fsmHandle.currentState ≠ stateNext then
        match tableGet fsmHandle.table stateNext with
        | none => none
        | some target =>
          some ({ fsmHandle with currentState := stateNext },
                runHook target.onEntryFunc (runHook slot.onExitFunc w1),
                FsmEvent.procRun fsmHandle.currentState ::
                  (hookTrace slot.onExitFunc (FsmEvent.exitRun fsmHandle.currentState) ++
                   hookTrace target.onEntryFunc (FsmEvent.entryRun fsmHandle.currentState)))
      else
        some (fsmHandle, w1, [FsmEvent.procRun fsmHandle.currentState])

/-- A call of the public interface, for reachability statements. -/
inductive FsmOp (W : Type) : Type where
  | init (initState : Nat)
  | add (state : Nat) (stateFunc : Option (W → Nat × W))
      (onEntryFunc onExitFunc : Option (W → W))
  | run

/-- Apply one interface call to machine and world; `none` when the call
runs into undefined behavior (only `fsmRun` can). -/
def applyOp {W : Type} (mw : FsmHandle W × W) : FsmOp W → Option (FsmHandle W × W)
  | FsmOp.init s => some ((fsmInit mw.1 s).1, mw.2)
  | FsmOp.add s sf ef xf => some ((fsmAdd mw.1 s sf ef xf).1, mw.2)
  | FsmOp.run =>
    match fsmRun mw.1 mw.2 with
    | none => none
    | some r => some (r.1, r.2.1)

/-- Apply a sequence of interface calls. -/
def runOps {W : Type} (mw : FsmHandle W × W) : List (FsmOp W) → Option (FsmHandle W × W)
  | [] => some mw
  | op :: ops =>
    match applyOp mw op with
    | none => none
    | some mw2 => runOps mw2 ops

/-- Structural facts the C type system gives for free: the table has
exactly `FSM_MAX_NR_OF_STATES` slots, and `currentState` indexes it. -/
def FsmInv {W : Type} (m : FsmHandle W) : Prop :=
  m.table.length = FSM_MAX_NR_OF_STATES ∧ m.currentState < FSM_MAX_NR_OF_STATES

/-- A fully cleared table of capacity `FSM_MAX_NR_OF_STATES`, over a `Nat`
world; concrete fixture for instantiating the theorems below. -/
def emptyTable10 : List (FsmStateDef Nat) := List.replicate FSM_MAX_NR_OF_STATES emptyStateDef

/-- Fixture machine: freshly initialized, current state `0`. -/
def mEmpty : FsmHandle Nat := ⟨0, emptyTable10⟩

/-- Fixture slot: process requests state `1` and bumps the world; exit hook
adds `10`. -/
def c2Slot0 : FsmStateDef Nat := ⟨some fun w => (1, w + 1), none, some fun w => w + 10⟩

/-- Fixture slot: inert except for an entry hook doubling the world. -/
def c2Slot1 : FsmStateDef Nat := ⟨none, some fun w => w * 2, none⟩

/-- Fixture machine for a hook-observing transition. -/
def c2M : FsmHandle Nat := ⟨0, [c2Slot0, c2Slot1]⟩

/-- Fixture slot: process stays in state `0`, hooks present but must not fire. -/
def c6Slot : FsmStateDef Nat := ⟨some fun w => (0, w + 5), some fun w => w + 100, some fun w => w + 200⟩

/-- Fixture machine for a self-transition. -/
def c6M : FsmHandle Nat := ⟨0, [c6Slot]⟩

/-- Fixture machine idling in an unregistered state. -/
def c7M : FsmHandle Nat := ⟨2, emptyTable10⟩

/-- Fixture slot: process requests state `1`, no hooks. -/
def c9Slot0 : FsmStateDef Nat := ⟨some fun w => (1, w), none, none⟩

/-- Fixture slot: no process action, but an entry hook. -/
def c9Slot1 : FsmStateDef Nat := ⟨none, some fun w => w + 1, none⟩

/-- Fixture machine transitioning into an inert slot. -/
def c9M : FsmHandle Nat := ⟨0, [c9Slot0, c9Slot1]⟩

/-- Fixture process action returning state `2`. -/
def pfA : Nat → Nat × Nat := fun w => (2, w)

/-- Fixture process action returning state `3`. -/
def pfB : Nat → Nat × Nat := fun w => (3, w + 1)

/-- Fixture hook. -/
def hookA : Option (Nat → Nat) := some fun w => w + 1

lemma tableGet_lt_length {W : Type} {t : List (FsmStateDef W)} {i : Nat}
    {s : FsmStateDef W} (h : tableGet t i = some s) : i < t.length := by
  by_contra h2
  rw [tableGet, List.getElem?_eq_none (Nat.le_of_not_lt h2)] at h
  exact Option.noConfusion h

lemma fsmRun_eq_inert {W : Type} {m : FsmHandle W} (w : W) {slot : FsmStateDef W}
    (hcur : tableGet m.table m.currentState = some slot)
    (hf : slot.stateFunc = none) :
    fsmRun m w = some (m, w, []) := by
  rw [fsmRun, hcur]
  dsimp only
  rw [hf]

lemma fsmRun_eq_self {W : Type} {m : FsmHandle W} (w : W) {slot : FsmStateDef W}
    {f : W → Nat × W}
    (hcur : tableGet m.table m.currentState = some slot)
    (hf : slot.stateFunc = some f)
    (hself : (f w).1 % 256 = m.currentState) :
    fsmRun m w = some (m, (f w).2, [FsmEvent.procRun m.currentState]) := by
  rw [fsmRun, hcur]
  dsimp only
  rw [hf]
  dsimp only
  rw [hself, if_neg (fun hcon => hcon rfl)]

lemma fsmRun_eq_transition {W : Type} {m : FsmHandle W} (w : W)
    {slot target : FsmStateDef W} {f : W → Nat × W} {n : Nat}
    (hcur : tableGet m.table m.currentState = some slot)
    (hf : slot.stateFunc = some f)
    (hn : (f w).1 % 256 = n)
    (hne : n ≠ m.currentState)
    (htarget : tableGet m.table n = some target) :
    fsmRun m w =
      some ({ m with currentState := n },
        runHook target.onEntryFunc (runHook slot.onExitFunc (f w).2),
        FsmEvent.procRun m.currentState ::
          (hookTrace slot.onExitFunc (FsmEvent.exitRun m.currentState) ++
           hookTrace target.onEntryFunc (FsmEvent.entryRun m.currentState))) := by
  rw [fsmRun, hcur]
  dsimp only
  rw [hf]
  dsimp only
  rw [hn, if_pos (Ne.symm hne), htarget]

lemma fsmInit_fst_inv {W : Type} (m : FsmHandle W) (s : Nat) :
    FsmInv (fsmInit m s).1 := by
  rw [fsmInit]
  by_cases h : s % 256 < FSM_MAX_NR_OF_STATES
  · rw [if_pos h]
    exact ⟨List.length_replicate _ _, h⟩
  · rw [if_neg h]
    exact ⟨List.length_replicate _ _, by norm_num [FSM_MAX_NR_OF_STATES]⟩

lemma fsmAdd_fst_inv {W : Type} {m : FsmHandle W} (s : Nat)
    (sf : Option (W → Nat × W)) (ef xf : Option (W → W)) (h : FsmInv m) :
    FsmInv (fsmAdd m s sf ef xf).1 := by
  rw [fsmAdd]
  by_cases hc : s % 256 < FSM_MAX_NR_OF_STATES ∧ sf.isSome = true
  · rw [if_pos hc]
    exact ⟨by simpa [List.length_set] using h.1, h.2⟩
  · rw [if_neg hc]
    exact h

lemma fsmRun_some_inv {W : Type} {m m2 : FsmHandle W} {w : W} {w2 : W}
    {tr : List FsmEvent} (h : FsmInv m)
    (hr : fsmRun m w = some (m2, w2, tr)) : FsmInv m2 := by
  rw [fsmRun] at hr
  cases hcur : tableGet m.table m.currentState with
  | none => rw [hcur] at hr; exact Option.noConfusion hr
  | some slot =>
    rw [hcur] at hr
    dsimp only at hr
    cases hf : slot.stateFunc with
    | none =>
      rw [hf] at hr
      dsimp only at hr
      simp only [Option.some.injEq, Prod.mk.injEq] at hr
      rw [← hr.1]
      exact h
    | some f =>
      rw [hf] at hr
      dsimp only at hr
      by_cases hne : m.currentState ≠ (f w).1 % 256
      · rw [if_pos hne] at hr
        cases htarget : tableGet m.table ((f w).1 % 256) with
        | none => rw [htarget] at hr; exact Option.noConfusion hr
        | some target =>
          rw [htarget] at hr
          dsimp only at hr
          simp only [Option.some.injEq, Prod.mk.injEq] at hr
          rw [← hr.1]
          exact ⟨h.1, by
            have := tableGet_lt_length htarget
            rw [h.1] at this
            exact this⟩
      · rw [if_neg hne] at hr
        simp only [Option.some.injEq, Prod.mk.injEq] at hr
        rw [← hr.1]
        exact h

lemma applyOp_some_inv {W : Type} {m m2 : FsmHandle W} {w w2 : W} {op : FsmOp W}
    (h : FsmInv m) (happ : applyOp (m, w) op = some (m2, w2)) : FsmInv m2 := by
  cases op with
  | init s =>
    simp only [applyOp, Option.some.injEq, Prod.mk.injEq] at happ
    rw [← happ.1]
    exact fsmInit_fst_inv m s
  | add s sf ef xf =>
    simp only [applyOp, Option.some.injEq, Prod.mk.injEq] at happ
    rw [← happ.1]
    exact fsmAdd_fst_inv s sf ef xf h
  | run =>
    rw [applyOp] at happ
    cases hr : fsmRun m w with
    | none => rw [hr] at happ; exact Option.noConfusion happ
    | some r =>
      rw [hr] at happ
      simp only [Option.some.injEq, Prod.mk.injEq] at happ
      rw [← happ.1]
      exact fsmRun_some_inv h (by rw [hr])

lemma fsmAdd_fst_of_lt {W : Type} (m : FsmHandle W) (s : Nat) (pf : W → Nat × W)
    (ef xf : Option (W → W)) (hs : s < FSM_MAX_NR_OF_STATES) :
    (fsmAdd m s (some pf) ef xf).1 =
      { m with table := m.table.set s ⟨some pf, ef, xf⟩ } := by
  have hs256 : s % 256 = s := Nat.mod_eq_of_lt (Nat.lt_trans hs (by decide))
  rw [fsmAdd, if_pos ⟨by rw [hs256]; exact hs, rfl⟩, hs256]

lemma fsmAdd_snd_of_lt {W : Type} (m : FsmHandle W) (s : Nat) (pf : W → Nat × W)
    (ef xf : Option (W → W)) (hs : s < FSM_MAX_NR_OF_STATES) :
    (fsmAdd m s (some pf) ef xf).2 = 0 := by
  have hs256 : s % 256 = s := Nat.mod_eq_of_lt (Nat.lt_trans hs (by decide))
  rw [fsmAdd, if_pos ⟨by rw [hs256]; exact hs, rfl⟩]

lemma fsmAdd_slot_eq {W : Type} (m : FsmHandle W) (s : Nat) (pf : W → Nat × W)
    (ef xf : Option (W → W)) (hs : s < FSM_MAX_NR_OF_STATES)
    (hlen : m.table.length = FSM_MAX_NR_OF_STATES) :
    tableGet (fsmAdd m s (some pf) ef xf).1.table s = some ⟨some pf, ef, xf⟩ := by
  rw [fsmAdd_fst_of_lt m s pf ef xf hs]
  exact List.getElem?_set_self (by rw [hlen]; exact hs)

lemma runOps_some_inv {W : Type} {ops : List (FsmOp W)} :
    ∀ {mw mw2 : FsmHandle W × W}, FsmInv mw.1 →
      runOps mw ops = some mw2 → FsmInv mw2.1 := by
  induction ops with
  | nil =>
    intro mw mw2 h hr
    simp only [runOps, Option.some.injEq] at hr
    rw [← hr]
    exact h
  | cons op ops ih =>
    intro mw mw2 h hr
    rw [runOps] at hr
    cases happ : applyOp mw op with
    | none => rw [happ] at hr; exact Option.noConfusion hr
    | some mw1 =>
      rw [happ] at hr
      exact ih (applyOp_some_inv h (by rw [← happ])) hr

/-- C3: for every machine and every `startState` (any `uint8_t` value),
`fsmInit` clears all three action references of every slot unconditionally;
when `startState < FSM_MAX_NR_OF_STATES` it sets `currentState = startState`
and reports success (`0`), and otherwise it sets `currentState = 0` and
reports failure (`-1`). -/
theorem fsmInit_contract {W : Type} (m : FsmHandle W) (s : Nat) (hs : s < 256) :
    (fsmInit m s).1.table = List.replicate FSM_MAX_NR_OF_STATES emptyStateDef ∧
    (s < FSM_MAX_NR_OF_STATES →
      (fsmInit m s).1.currentState = s ∧ (fsmInit m s).2 = 0) ∧
    (FSM_MAX_NR_OF_STATES ≤ s →
      (fsmInit m s).1.currentState = 0 ∧ (fsmInit m s).2 = -1) := by
  simp only [fsmInit, Nat.mod_eq_of_lt hs]
  by_cases h : s < FSM_MAX_NR_OF_STATES
  · rw [if_pos h]
    exact ⟨rfl, fun _ => ⟨rfl, rfl⟩, fun hge => absurd h (Nat.not_lt.mpr hge)⟩
  · rw [if_neg h]
    exact ⟨rfl, fun hlt => absurd hlt h, fun _ => ⟨rfl, rfl⟩⟩

theorem fsmInit_contract_witness :
    ((fsmInit (⟨3, []⟩ : FsmHandle Unit) 4).1.currentState = 4 ∧
      (fsmInit (⟨3, []⟩ : FsmHandle Unit) 4).2 = 0) ∧
    ((fsmInit (⟨3, []⟩ : FsmHandle Unit) 12).1.currentState = 0 ∧
      (fsmInit (⟨3, []⟩ : FsmHandle Unit) 12).2 = -1) :=
  ⟨(fsmInit_contract ⟨3, []⟩ 4 (by decide)).2.1 (by decide),
   (fsmInit_contract ⟨3, []⟩ 12 (by decide)).2.2 (by decide)⟩

/-- C4: `fsmAdd` fails (returns `-1`) exactly when the state is out of range
or the process action is absent (`NULL`), and on failure the whole machine
(table and `currentState`) is left unchanged. -/
theorem fsmAdd_failure_frame {W : Type} (m : FsmHandle W) (s : Nat)
    (sf : Option (W → Nat × W)) (ef xf : Option (W → W)) (hs : s < 256) :
    ((fsmAdd m s sf ef xf).2 = -1 ↔ FSM_MAX_NR_OF_STATES ≤ s ∨ sf = none) ∧
    (FSM_MAX_NR_OF_STATES ≤ s ∨ sf = none → (fsmAdd m s sf ef xf).1 = m) := by
  simp only [fsmAdd, Nat.mod_eq_of_lt hs]
  by_cases hc : s < FSM_MAX_NR_OF_STATES ∧ sf.isSome = true
  · rw [if_pos hc]
    dsimp only
    have h1 : ¬(FSM_MAX_NR_OF_STATES ≤ s ∨ sf = none) := by
      rintro (h2 | h2)
      · exact absurd hc.1 (Nat.not_lt.mpr h2)
      · rw [h2] at hc
        exact Bool.noConfusion hc.2
    exact ⟨⟨fun h0 => absurd h0 (by decide), fun h0 => absurd h0 h1⟩,
           fun h0 => absurd h0 h1⟩
  · rw [if_neg hc]
    dsimp only
    have h1 : FSM_MAX_NR_OF_STATES ≤ s ∨ sf = none := by
      rcases not_and_or.mp hc with h2 | h2
      · exact Or.inl (Nat.not_lt.mp h2)
      · exact Or.inr (Option.not_isSome_iff_eq_none.mp (by simpa using h2))
    exact ⟨⟨fun _ => h1, fun _ => rfl⟩, fun _ => rfl⟩

theorem fsmAdd_failure_frame_witness :
    (fsmAdd mEmpty 12 (some pfA) none none).1 = mEmpty ∧
    (fsmAdd mEmpty 1 none none none).2 = -1 :=
  ⟨(fsmAdd_failure_frame mEmpty 12 (some pfA) none none (by decide)).2
      (Or.inl (by decide)),
   (fsmAdd_failure_frame mEmpty 1 none none none (by decide)).1.mpr
      (Or.inr rfl)⟩

/-- C5: for every in-range state and present process action, `fsmAdd`
succeeds (returns `0`) and afterwards slot `state` holds exactly the triple
passed in, whatever the slot held before; in particular re-registering the
same state replaces the slot with the latest triple. -/
theorem fsmAdd_success_overwrite {W : Type} (m : FsmHandle W) (s : Nat)
    (pf pf0 : W → Nat × W) (ef xf ef0 xf0 : Option (W → W))
    (hs : s < FSM_MAX_NR_OF_STATES)
    (hlen : m.table.length = FSM_MAX_NR_OF_STATES) :
    (fsmAdd m s (some pf) ef xf).2 = 0 ∧
    tableGet (fsmAdd m s (some pf) ef xf).1.table s = some ⟨some pf, ef, xf⟩ ∧
    tableGet (fsmAdd ((fsmAdd m s (some pf0) ef0 xf0).1) s (some pf) ef xf).1.table s =
      some ⟨some pf, ef, xf⟩ := by
  refine ⟨fsmAdd_snd_of_lt m s pf ef xf hs, fsmAdd_slot_eq m s pf ef xf hs hlen, ?_⟩
  refine fsmAdd_slot_eq _ s pf ef xf hs ?_
  rw [fsmAdd_fst_of_lt m s pf0 ef0 xf0 hs]
  simpa [List.length_set] using hlen

theorem fsmAdd_success_overwrite_witness :
    (fsmAdd mEmpty 4 (some pfA) none none).2 = 0 ∧
    tableGet (fsmAdd mEmpty 4 (some pfA) none none).1.table 4 =
      some ⟨some pfA, none, none⟩ ∧
    tableGet (fsmAdd ((fsmAdd mEmpty 4 (some pfB) hookA none).1) 4
        (some pfA) none none).1.table 4 = some ⟨some pfA, none, none⟩ :=
  fsmAdd_success_overwrite mEmpty 4 pfA pfB none none hookA none (by decide) rfl

/-- C8: registrations of two distinct in-range states with valid triples
commute: registering `s1` then `s2` yields the same machine as registering
`s2` then `s1`. -/
theorem fsmAdd_comm {W : Type} (m : FsmHandle W) (a b : Nat)
    (f1 f2 : W → Nat × W) (e1 x1 e2 x2 : Option (W → W))
    (h1 : a < FSM_MAX_NR_OF_STATES) (h2 : b < FSM_MAX_NR_OF_STATES)
    (hne : a ≠ b) :
    (fsmAdd ((fsmAdd m a (some f1) e1 x1).1) b (some f2) e2 x2).1 =
    (fsmAdd ((fsmAdd m b (some f2) e2 x2).1) a (some f1) e1 x1).1 := by
  rw [fsmAdd_fst_of_lt m a f1 e1 x1 h1, fsmAdd_fst_of_lt _ b f2 e2 x2 h2,
      fsmAdd_fst_of_lt m b f2 e2 x2 h2, fsmAdd_fst_of_lt _ a f1 e1 x1 h1]
  have hcomm := List.set_comm (FsmStateDef.mk (some f1) e1 x1)
    (FsmStateDef.mk (some f2) e2 x2) m.table hne
  simp only [hcomm]

theorem fsmAdd_comm_witness :
    (fsmAdd ((fsmAdd mEmpty 1 (some pfA) none none).1) 2 (some pfB) hookA none).1 =
    (fsmAdd ((fsmAdd mEmpty 2 (some pfB) hookA none).1) 1 (some pfA) none none).1 :=
  fsmAdd_comm mEmpty 1 2 pfA pfB none none hookA none (by decide) (by decide)
    (by decide)

/-- C10: a successful `fsmAdd` on slot `state` modifies only that slot:
`currentState` and every other slot of the table are unchanged. -/
theorem fsmAdd_frame {W : Type} (m : FsmHandle W) (s : Nat) (pf : W → Nat × W)
    (ef xf : Option (W → W)) (hs : s < FSM_MAX_NR_OF_STATES) :
    (fsmAdd m s (some pf) ef xf).1.currentState = m.currentState ∧
    ∀ j, j ≠ s →
      tableGet (fsmAdd m s (some pf) ef xf).1.table j = tableGet m.table j := by
  rw [fsmAdd_fst_of_lt m s pf ef xf hs]
  exact ⟨rfl, fun j hj => List.getElem?_set_ne (Ne.symm hj)⟩

theorem fsmAdd_frame_witness :
    (fsmAdd mEmpty 5 (some pfA) hookA none).1.currentState = mEmpty.currentState ∧
    tableGet (fsmAdd mEmpty 5 (some pfA) hookA none).1.table 3 =
      tableGet mEmpty.table 3 :=
  ⟨(fsmAdd_frame mEmpty 5 pfA hookA none (by decide)).1,
   (fsmAdd_frame mEmpty 5 pfA hookA none (by decide)).2 3 (by decide)⟩

/-- C2: when the current slot's process action returns a next state other
than `currentState`, one `fsmRun` call first runs the old state's exit hook
(if present), then the target slot's entry hook (if present), and only then
commits `currentState := nextState`.  The returned world is the entry hook
applied after the exit hook, and both recorded events observe the
pre-transition `currentState`; the returned machine carries the new state. -/
theorem fsmRun_transition_order {W : Type} (m : FsmHandle W) (w : W)
    (slot target : FsmStateDef W) (f : W → Nat × W) (n : Nat)
    (hcur : tableGet m.table m.currentState = some slot)
    (hf : slot.stateFunc = some f)
    (hn : (f w).1 % 256 = n)
    (hne : n ≠ m.currentState)
    (htarget : tableGet m.table n = some target) :
    fsmRun m w =
      some ({ m with currentState := n },
        runHook target.onEntryFunc (runHook slot.onExitFunc (f w).2),
        FsmEvent.procRun m.currentState ::
          (hookTrace slot.onExitFunc (FsmEvent.exitRun m.currentState) ++
           hookTrace target.onEntryFunc (FsmEvent.entryRun m.currentState))) :=
  fsmRun_eq_transition w hcur hf hn hne htarget

theorem fsmRun_transition_order_witness :
    fsmRun c2M 0 =
      some (⟨1, [c2Slot0, c2Slot1]⟩, 22,
        [FsmEvent.procRun 0, FsmEvent.exitRun 0, FsmEvent.entryRun 0]) :=
  fsmRun_transition_order c2M 0 c2Slot0 c2Slot1 (fun w => (1, w + 1)) 1
    rfl rfl rfl (by decide) rfl

/-- C6: when the current slot's process action returns `currentState`
itself, `fsmRun` invokes no entry or exit hook and leaves the machine
(including `currentState`) unchanged; only the process action ran. -/
theorem fsmRun_self_no_hooks {W : Type} (m : FsmHandle W) (w : W)
    (slot : FsmStateDef W) (f : W → Nat × W)
    (hcur : tableGet m.table m.currentState = some slot)
    (hf : slot.stateFunc = some f)
    (hself : (f w).1 % 256 = m.currentState) :
    fsmRun m w = some (m, (f w).2, [FsmEvent.procRun m.currentState]) :=
  fsmRun_eq_self w hcur hf hself

theorem fsmRun_self_no_hooks_witness :
    fsmRun c6M 3 = some (c6M, 8, [FsmEvent.procRun 0]) :=
  fsmRun_self_no_hooks c6M 3 c6Slot (fun w => (0, w + 5)) rfl rfl rfl

/-- C7: when the slot at `currentState` has no process action, one `fsmRun`
call invokes no user action at all, leaves machine and world unchanged, and
does not fault (it returns normally; there is no error result). -/
theorem fsmRun_inert_noop {W : Type} (m : FsmHandle W) (w : W)
    (slot : FsmStateDef W)
    (hcur : tableGet m.table m.currentState = some slot)
    (hf : slot.stateFunc = none) :
    fsmRun m w = some (m, w, []) :=
  fsmRun_eq_inert w hcur hf

theorem fsmRun_inert_noop_witness :
    fsmRun c7M 42 = some (c7M, 42, []) :=
  fsmRun_inert_noop c7M 42 emptyStateDef rfl rfl

/-- C9: a requested transition whose in-range target slot has no process
action still commits: `currentState` becomes the next state, the target's
entry hook runs only if present, and every subsequent `fsmRun` on the
resulting machine is a no-op (until that slot is registered, which would
change the machine). -/
theorem fsmRun_transition_to_inert {W : Type} (m : FsmHandle W) (w : W)
    (slot target : FsmStateDef W) (f : W → Nat × W) (n : Nat)
    (hcur : tableGet m.table m.currentState = some slot)
    (hf : slot.stateFunc = some f)
    (hn : (f w).1 % 256 = n)
    (hne : n ≠ m.currentState)
    (htarget : tableGet m.table n = some target)
    (hinert : target.stateFunc = none) :
    fsmRun m w =
      some ({ m with currentState := n },
        runHook target.onEntryFunc (runHook slot.onExitFunc (f w).2),
        FsmEvent.procRun m.currentState ::
          (hookTrace slot.onExitFunc (FsmEvent.exitRun m.currentState) ++
           hookTrace target.onEntryFunc (FsmEvent.entryRun m.currentState))) ∧
    ∀ w2, fsmRun { m with currentState := n } w2 =
      some ({ m with currentState := n }, w2, []) :=
  ⟨fsmRun_eq_transition w hcur hf hn hne htarget,
   fun w2 => fsmRun_eq_inert w2 htarget hinert⟩

theorem fsmRun_transition_to_inert_witness :
    fsmRun c9M 0 =
      some (⟨1, [c9Slot0, c9Slot1]⟩, 1, [FsmEvent.procRun 0, FsmEvent.entryRun 0]) ∧
    fsmRun (⟨1, [c9Slot0, c9Slot1]⟩ : FsmHandle Nat) 5 =
      some (⟨1, [c9Slot0, c9Slot1]⟩, 5, []) :=
  ⟨(fsmRun_transition_to_inert c9M 0 c9Slot0 c9Slot1 (fun w => (1, w)) 1
      rfl rfl rfl (by decide) rfl rfl).1,
   (fsmRun_transition_to_inert c9M 0 c9Slot0 c9Slot1 (fun w => (1, w)) 1
      rfl rfl rfl (by decide) rfl rfl).2 5⟩

/-- C1: along every defined execution — an `fsmInit` call followed by any
sequence of `fsmInit`/`fsmAdd`/`fsmRun` calls with arbitrary user-supplied
process/entry/exit actions, none of which runs into the undefined
out-of-bounds table access — the reached machine satisfies
`currentState < FSM_MAX_NR_OF_STATES` (the lower bound `0 ≤ currentState`
is inherent in `Nat`), and every further defined call preserves the
bound. -/
theorem fsm_reachable_currentState_lt {W : Type} (h0 : FsmHandle W) (w0 : W)
    (s : Nat) (ops : List (FsmOp W)) (m : FsmHandle W) (w : W)
    (hreach : runOps ((fsmInit h0 s).1, w0) ops = some (m, w)) :
    m.currentState < FSM_MAX_NR_OF_STATES ∧
      ∀ (op : FsmOp W) (m2 : FsmHandle W) (w2 : W),
        applyOp (m, w) op = some (m2, w2) →
          m2.currentState < FSM_MAX_NR_OF_STATES := by
  have hinv : FsmInv m := runOps_some_inv (fsmInit_fst_inv h0 s) hreach
  exact ⟨hinv.2, fun op m2 w2 happ => (applyOp_some_inv hinv happ).2⟩

theorem fsm_reachable_currentState_lt_witness :
    mEmpty.currentState < FSM_MAX_NR_OF_STATES :=
  (fsm_reachable_currentState_lt (⟨7, []⟩ : FsmHandle Nat) 0 0
    [FsmOp.run] mEmpty 0 rfl).1
